import Mathlib

/-!
Verification development for the TGC (Thermostatic Gain Control) Model 5.0
simulation (`src/simulation.py`).

`TGCAgentV5` maintains a latent state `x` that tracks the stable equilibria
of the cubic `x^3 - Ω*x - E` under a time-varying drive `E`, selecting on
each update the stable root nearest to the previous state (`np.argmin` over
distances, which returns the first minimiser on ties).  Floating point
numerics are idealised as real numbers.  `np.roots` returns the roots of
the cubic in an unspecified order, so the enumeration produced by
`_get_stable_roots` is modelled as a function `L : ℝ → List ℝ` together
with the predicate `enumerates`, which says that `L E` lists exactly the
stable real roots at drive `E`, without repetition.
-/

namespace TGC

/-- The stationary-point equation of the potential, from `_get_stable_roots`:
`cubic Ω E x = x^3 - Ω*x - E` (coefficients `[1.0, 0.0, -omega, -E]`). -/
def cubic (Ω E x : ℝ) : ℝ := x ^ 3 - Ω * x - E

/-- The set of stable roots computed by `_get_stable_roots`: the real roots of
`x^3 - Ω*x - E` that satisfy the local-minimum test `3*x^2 - Ω > 0`. -/
def stableRootSet (Ω E : ℝ) : Set ℝ :=
  {x : ℝ | cubic Ω E x = 0 ∧ 0 < 3 * x ^ 2 - Ω}

/-- `L E` is the list returned by `_get_stable_roots(E)`: it enumerates the
stable roots at drive `E` in some (numerically determined, unspecified)
order, each exactly once. -/
def enumerates (Ω : ℝ) (L : ℝ → List ℝ) (E : ℝ) : Prop :=
  (L E).Nodup ∧ ∀ y : ℝ, y ∈ L E ↔ y ∈ stableRootSet Ω E

/-- `L` enumerates the stable roots at every drive value. -/
def StableEnum (Ω : ℝ) (L : ℝ → List ℝ) : Prop :=
  ∀ E : ℝ, enumerates Ω L E

/-- The minimum-distance selection of `update_state`:
`stable_roots[np.argmin([abs(r - x) for r in stable_roots])]`.
`np.argmin` returns the first index achieving the minimum, which the
left fold with a strict comparison reproduces.  On an empty list the
previous state is returned (the caller's fallback). -/
noncomputable def argminAbs (x : ℝ) : List ℝ → ℝ
  | [] => x
  | r :: rs => rs.foldl (fun best s => if |s - x| < |best - x| then s else best) r

/-- The fold underlying `argminAbs` either keeps the starting candidate (when no
later element is strictly closer) or returns the first element of the list that
is strictly closer than the start and weakly closer than everything else. -/
lemma selBest_spec (x : ℝ) :
    ∀ (l : List ℝ) (best : ℝ),
      (l.foldl (fun b s => if |s - x| < |b - x| then s else b) best = best ∧
        ∀ y ∈ l, |best - x| ≤ |y - x|) ∨
      (∃ (k : ℕ) (hk : k < l.length),
        l.foldl (fun b s => if |s - x| < |b - x| then s else b) best = l.get ⟨k, hk⟩ ∧
        |l.get ⟨k, hk⟩ - x| < |best - x| ∧
        (∀ y ∈ l, |l.get ⟨k, hk⟩ - x| ≤ |y - x|) ∧
        ∀ (j : ℕ) (hj : j < l.length), j < k →
          |l.get ⟨k, hk⟩ - x| < |l.get ⟨j, hj⟩ - x|) := by
  intro l
  induction l with
  | nil => intro best; left; exact ⟨rfl, by simp⟩
  | cons h t ih =>
    intro best
    by_cases hc : |h - x| < |best - x|
    · have hfold : (h :: t).foldl (fun b s => if |s - x| < |b - x| then s else b) best =
          t.foldl (fun b s => if |s - x| < |b - x| then s else b) h := by
        simp [List.foldl_cons, if_pos hc]
      rcases ih h with ⟨he, hall⟩ | ⟨k, hk, he, hlt, hall, hfirst⟩
      · right
        refine ⟨0, by simp, ?_, ?_, ?_, ?_⟩
        · simpa [hfold] using he
        · simpa using hc
        · intro y hy
          rcases List.mem_cons.mp hy with rfl | hy
          · simp
          · simpa using hall y hy
        · intro j hj hj0; omega
      · right
        refine ⟨k + 1, by simpa using Nat.succ_lt_succ hk, ?_, ?_, ?_, ?_⟩
        · simpa [hfold] using he
        · simpa using lt_trans hlt hc
        · intro y hy
          rcases List.mem_cons.mp hy with rfl | hy
          · simpa using le_of_lt hlt
          · simpa using hall y hy
        · intro j hj hjk
          cases j with
          | zero => simpa using hlt
          | succ j0 =>
            have hj0 : j0 < t.length := by simpa using Nat.lt_of_succ_lt_succ hj
            simpa using hfirst j0 hj0 (Nat.lt_of_succ_lt_succ hjk)
    · have hfold : (h :: t).foldl (fun b s => if |s - x| < |b - x| then s else b) best =
          t.foldl (fun b s => if |s - x| < |b - x| then s else b) best := by
        simp [List.foldl_cons, if_neg hc]
      have hbh : |best - x| ≤ |h - x| := not_lt.mp hc
      rcases ih best with ⟨he, hall⟩ | ⟨k, hk, he, hlt, hall, hfirst⟩
      · left
        refine ⟨by simpa [hfold] using he, ?_⟩
        intro y hy
        rcases List.mem_cons.mp hy with rfl | hy
        · exact hbh
        · exact hall y hy
      · right
        refine ⟨k + 1, by simpa using Nat.succ_lt_succ hk, ?_, ?_, ?_, ?_⟩
        · simpa [hfold] using he
        · simpa using hlt
        · intro y hy
          rcases List.mem_cons.mp hy with rfl | hy
          · simpa using le_of_lt (lt_of_lt_of_le hlt hbh)
          · simpa using hall y hy
        · intro j hj hjk
          cases j with
          | zero => simpa using lt_of_lt_of_le hlt hbh
          | succ j0 =>
            have hj0 : j0 < t.length := by simpa using Nat.lt_of_succ_lt_succ hj
            simpa using hfirst j0 hj0 (Nat.lt_of_succ_lt_succ hjk)

/-- `argminAbs` on a non-empty list returns the first element achieving the
minimum distance to `x`. -/
lemma argminAbs_spec (x : ℝ) (l : List ℝ) (hne : l ≠ []) :
    ∃ (k : ℕ) (hk : k < l.length),
      argminAbs x l = l.get ⟨k, hk⟩ ∧
      (∀ y ∈ l, |l.get ⟨k, hk⟩ - x| ≤ |y - x|) ∧
      ∀ (j : ℕ) (hj : j < l.length), j < k →
        |l.get ⟨k, hk⟩ - x| < |l.get ⟨j, hj⟩ - x| := by
  cases l with
  | nil => exact absurd rfl hne
  | cons h t =>
    have hdef : argminAbs x (h :: t) =
        t.foldl (fun b s => if |s - x| < |b - x| then s else b) h := rfl
    rcases selBest_spec x t h with ⟨he, hall⟩ | ⟨k, hk, he, hlt, hall, hfirst⟩
    · refine ⟨0, by simp, ?_, ?_, ?_⟩
      · simpa [hdef] using he
      · intro y hy
        rcases List.mem_cons.mp hy with rfl | hy
        · simp
        · simpa using hall y hy
      · intro j hj hj0; omega
    · refine ⟨k + 1, by simpa using Nat.succ_lt_succ hk, ?_, ?_, ?_⟩
      · simpa [hdef] using he
      · intro y hy
        rcases List.mem_cons.mp hy with rfl | hy
        · simpa using le_of_lt hlt
        · simpa using hall y hy
      · intro j hj hjk
        cases j with
        | zero => simpa using hlt
        | succ j0 =>
          have hj0 : j0 < t.length := by simpa using Nat.lt_of_succ_lt_succ hj
          simpa using hfirst j0 hj0 (Nat.lt_of_succ_lt_succ hjk)

/-- The selected root belongs to the list. -/
lemma argminAbs_mem (x : ℝ) (l : List ℝ) (hne : l ≠ []) : argminAbs x l ∈ l := by
  obtain ⟨k, hk, he, -, -⟩ := argminAbs_spec x l hne
  rw [he]; exact List.get_mem l k hk

/-- When `r` is strictly closer to `x` than every other element of the list,
the selection returns `r` (irrespective of the enumeration order). -/
lemma argminAbs_eq_of_unique (x r : ℝ) (l : List ℝ) (hr : r ∈ l)
    (h : ∀ y ∈ l, y = r ∨ |r - x| < |y - x|) : argminAbs x l = r := by
  have hne : l ≠ [] := List.ne_nil_of_mem hr
  obtain ⟨k, hk, he, hall, -⟩ := argminAbs_spec x l hne
  have hmem : argminAbs x l ∈ l := by rw [he]; exact List.get_mem l k hk
  rcases h _ hmem with h1 | h1
  · exact h1
  · have h2 : |argminAbs x l - x| ≤ |r - x| := by rw [he]; exact hall r hr
    exact absurd (lt_of_lt_of_le h1 h2) (lt_irrefl _)

/-- The catastrophe agent's mutable state: trait parameter `omega`, latent
state `x`, and the two append-only histories. -/
structure TGCAgentV5 where
  omega : ℝ
  x : ℝ
  x_history : List ℝ
  beta_history : List ℝ

/-- The new latent state computed by `update_state`: the nearest stable root,
or the previous state when no stable root exists (the numerical fallback). -/
noncomputable def stepX (L : ℝ → List ℝ) (x E_t : ℝ) : ℝ :=
  if L E_t = [] then x else argminAbs x (L E_t)

/-- `TGCAgentV5.update_state`: apply the minimum-distance selection rule at
drive `E_t`, append the new state to `x_history`, append the gain
`beta_t = exp(x)` to `beta_history`, and return `beta_t`. -/
noncomputable def update_state (L : ℝ → List ℝ) (a : TGCAgentV5) (E_t : ℝ) :
    TGCAgentV5 × ℝ :=
  let new_x := stepX L a.x E_t
  let beta_t := Real.exp new_x
  ({ a with x := new_x,
            x_history := a.x_history ++ [new_x],
            beta_history := a.beta_history ++ [beta_t] }, beta_t)

/-- Python's `max` over a non-empty list (the `[]` case is never used by the
constructor, which tests for emptiness first). -/
noncomputable def maxList : List ℝ → ℝ
  | [] => 0
  | r :: rs => rs.foldl max r

/-- `TGCAgentV5.__init__`: the initial state is the largest stable root at
`E = 0`, or `0.0` when there is none. -/
noncomputable def mkAgent (Ω : ℝ) (L : ℝ → List ℝ) : TGCAgentV5 :=
  { omega := Ω,
    x := if L 0 = [] then 0 else maxList (L 0),
    x_history := [],
    beta_history := [] }

lemma foldl_max_spec :
    ∀ (l : List ℝ) (b : ℝ),
      (l.foldl max b = b ∨ l.foldl max b ∈ l) ∧
      b ≤ l.foldl max b ∧ ∀ y ∈ l, y ≤ l.foldl max b := by
  intro l
  induction l with
  | nil => intro b; exact ⟨Or.inl rfl, le_refl _, by simp⟩
  | cons h t ih =>
    intro b
    obtain ⟨hmem, hle, hall⟩ := ih (max b h)
    have hfold : (h :: t).foldl max b = t.foldl max (max b h) := rfl
    refine ⟨?_, ?_, ?_⟩
    · rcases hmem with he | he
      · rcases max_choice b h with hm | hm
        · exact Or.inl (by rw [hfold, he, hm])
        · exact Or.inr (by rw [hfold, he, hm]; exact List.mem_cons_self h t)
      · exact Or.inr (by rw [hfold]; exact List.mem_cons_of_mem h he)
    · exact le_trans (le_max_left b h) (by rw [hfold]; exact hle)
    · intro y hy
      rcases List.mem_cons.mp hy with rfl | hy
      · exact le_trans (le_max_right b y) (by rw [hfold]; exact hle)
      · rw [hfold]; exact hall y hy

/-- `maxList` of a non-empty list is a member and an upper bound. -/
lemma maxList_spec (l : List ℝ) (hne : l ≠ []) :
    maxList l ∈ l ∧ ∀ y ∈ l, y ≤ maxList l := by
  cases l with
  | nil => exact absurd rfl hne
  | cons h t =>
    obtain ⟨hmem, hle, hall⟩ := foldl_max_spec t h
    have hdef : maxList (h :: t) = t.foldl max h := rfl
    constructor
    · rcases hmem with he | he
      · rw [hdef, he]; exact List.mem_cons_self h t
      · rw [hdef]; exact List.mem_cons_of_mem h he
    · intro y hy
      rcases List.mem_cons.mp hy with rfl | hy
      · rw [hdef]; exact hle
      · rw [hdef]; exact hall y hy

/-! ### Trajectories

`run_catastrophe_forcing_protocol` feeds a drive sequence element by element
to `update_state`; the following functions compute the resulting state and
the recorded histories. -/

/-- Latent state after feeding the drive values `Es` in order. -/
noncomputable def xAfter (L : ℝ → List ℝ) (x : ℝ) (Es : List ℝ) : ℝ :=
  Es.foldl (stepX L) x

/-- The successive latent states recorded in `x_history` along `Es`. -/
noncomputable def xList (L : ℝ → List ℝ) (x : ℝ) : List ℝ → List ℝ
  | [] => []
  | E :: Es => stepX L x E :: xList L (stepX L x E) Es

/-- The successive gains recorded in `beta_history` along `Es`. -/
noncomputable def betaList (L : ℝ → List ℝ) (x : ℝ) (Es : List ℝ) : List ℝ :=
  (xList L x Es).map Real.exp

/-- Feeding a whole drive sequence to the agent, as the protocol's inner loop
`for E_t in E_sequence: agent.update_state(E_t)` does. -/
noncomputable def runAgent (L : ℝ → List ℝ) (a : TGCAgentV5) (Es : List ℝ) :
    TGCAgentV5 :=
  Es.foldl (fun b E => (update_state L b E).1) a

lemma xAfter_nil (L : ℝ → List ℝ) (x : ℝ) : xAfter L x [] = x := rfl

lemma xAfter_cons (L : ℝ → List ℝ) (x E : ℝ) (Es : List ℝ) :
    xAfter L x (E :: Es) = xAfter L (stepX L x E) Es := rfl

lemma xAfter_append (L : ℝ → List ℝ) (x : ℝ) (Es Fs : List ℝ) :
    xAfter L x (Es ++ Fs) = xAfter L (xAfter L x Es) Fs := by
  induction Es generalizing x with
  | nil => rfl
  | cons E Es ih => simp only [List.cons_append, xAfter_cons, ih]

lemma xList_length (L : ℝ → List ℝ) (x : ℝ) (Es : List ℝ) :
    (xList L x Es).length = Es.length := by
  induction Es generalizing x with
  | nil => rfl
  | cons E Es ih => simp [xList, ih]

lemma xList_append (L : ℝ → List ℝ) (x : ℝ) (Es Fs : List ℝ) :
    xList L x (Es ++ Fs) = xList L x Es ++ xList L (xAfter L x Es) Fs := by
  induction Es generalizing x with
  | nil => rfl
  | cons E Es ih => simp [xList, ih, xAfter_cons]

lemma xList_getElem? (L : ℝ → List ℝ) :
    ∀ (Es : List ℝ) (x : ℝ) (k : ℕ), k < Es.length →
      (xList L x Es)[k]? = some (xAfter L x (Es.take (k + 1))) := by
  intro Es
  induction Es with
  | nil => intro x k hk; simp at hk
  | cons E Es ih =>
    intro x k hk
    cases k with
    | zero => simp [xList, xAfter]
    | succ k0 =>
      have hk0 : k0 < Es.length := by simpa using Nat.lt_of_succ_lt_succ hk
      simp only [xList, List.getElem?_cons_succ, List.take_succ_cons, xAfter_cons]
      exact ih (stepX L x E) k0 hk0

lemma update_state_fst_x (L : ℝ → List ℝ) (a : TGCAgentV5) (E : ℝ) :
    (update_state L a E).1.x = stepX L a.x E := rfl

lemma update_state_fst_omega (L : ℝ → List ℝ) (a : TGCAgentV5) (E : ℝ) :
    (update_state L a E).1.omega = a.omega := rfl

lemma update_state_snd (L : ℝ → List ℝ) (a : TGCAgentV5) (E : ℝ) :
    (update_state L a E).2 = Real.exp (stepX L a.x E) := rfl

lemma runAgent_x (L : ℝ → List ℝ) (a : TGCAgentV5) (Es : List ℝ) :
    (runAgent L a Es).x = xAfter L a.x Es := by
  induction Es generalizing a with
  | nil => rfl
  | cons E Es ih => simpa [runAgent, xAfter_cons] using ih (update_state L a E).1

lemma runAgent_x_history (L : ℝ → List ℝ) (a : TGCAgentV5) (Es : List ℝ) :
    (runAgent L a Es).x_history = a.x_history ++ xList L a.x Es := by
  induction Es generalizing a with
  | nil => simp [runAgent, xList]
  | cons E Es ih =>
    have := ih (update_state L a E).1
    simp only [runAgent, List.foldl_cons] at this ⊢
    rw [this]
    simp [update_state, xList]

lemma runAgent_beta_history (L : ℝ → List ℝ) (a : TGCAgentV5) (Es : List ℝ) :
    (runAgent L a Es).beta_history = a.beta_history ++ betaList L a.x Es := by
  induction Es generalizing a with
  | nil => simp [runAgent, betaList, xList]
  | cons E Es ih =>
    have := ih (update_state L a E).1
    simp only [runAgent, List.foldl_cons] at this ⊢
    rw [this]
    simp [update_state, betaList, xList]

/-! ### Root analysis of the cubic `x^3 - Ω*x - E`

For `Ω > 0` the derivative `3x^2 - Ω` vanishes at `±bcrit Ω` where
`bcrit Ω = sqrt(Ω/3)`; the local extrema of the cubic there have values
`±Ecrit Ω - E` with `Ecrit Ω = sqrt(4Ω³/27)`, which yields the usual
cusp-catastrophe root counting. -/

/-- The positive critical point of the cubic, `sqrt(Ω/3)`. -/
noncomputable def bcrit (Ω : ℝ) : ℝ := Real.sqrt (Ω / 3)

/-- The critical drive `E_crit = sqrt(4*Ω^3/27)` of the spec and of
`run_catastrophe_forcing_protocol`. -/
noncomputable def Ecrit (Ω : ℝ) : ℝ := Real.sqrt (4 * Ω ^ 3 / 27)

lemma bcrit_pos {Ω : ℝ} (hΩ : 0 < Ω) : 0 < bcrit Ω :=
  Real.sqrt_pos.mpr (by linarith)

lemma bcrit_sq {Ω : ℝ} (hΩ : 0 ≤ Ω) : bcrit Ω ^ 2 = Ω / 3 :=
  Real.sq_sqrt (by linarith)

lemma Ecrit_eq {Ω : ℝ} (hΩ : 0 < Ω) : Ecrit Ω = 2 * bcrit Ω ^ 3 := by
  have hb2 : bcrit Ω ^ 2 = Ω / 3 := bcrit_sq hΩ.le
  have hb0 : 0 ≤ bcrit Ω := Real.sqrt_nonneg _
  have h : (4 * Ω ^ 3 / 27 : ℝ) = (2 * bcrit Ω ^ 3) ^ 2 := by
    have h4 : (2 * bcrit Ω ^ 3) ^ 2 = 4 * (bcrit Ω ^ 2) ^ 3 := by ring
    rw [h4, hb2]; ring
  rw [Ecrit, h, Real.sqrt_sq (by positivity)]

lemma Ecrit_pos {Ω : ℝ} (hΩ : 0 < Ω) : 0 < Ecrit Ω := by
  rw [Ecrit_eq hΩ]
  have := bcrit_pos hΩ
  positivity

lemma cubic_continuous (Ω E : ℝ) : Continuous (cubic Ω E) := by
  unfold cubic
  continuity

lemma cubic_sub (Ω E u v : ℝ) :
    cubic Ω E v - cubic Ω E u = (v - u) * (u ^ 2 + u * v + v ^ 2 - Ω) := by
  unfold cubic; ring

/-- The cubic is strictly increasing on `[bcrit Ω, ∞)`. -/
lemma cubic_mono_upper {Ω : ℝ} (hΩ : 0 < Ω) (E u v : ℝ)
    (hu : bcrit Ω ≤ u) (huv : u < v) : cubic Ω E u < cubic Ω E v := by
  have hb0 := bcrit_pos hΩ
  have hb2 := bcrit_sq hΩ.le
  have hkey : 0 < u ^ 2 + u * v + v ^ 2 - Ω := by nlinarith
  have := cubic_sub Ω E u v
  nlinarith

/-- The cubic is strictly increasing on `(-∞, -bcrit Ω]`. -/
lemma cubic_mono_lower {Ω : ℝ} (hΩ : 0 < Ω) (E u v : ℝ)
    (huv : u < v) (hv : v ≤ -bcrit Ω) : cubic Ω E u < cubic Ω E v := by
  have hb0 := bcrit_pos hΩ
  have hb2 := bcrit_sq hΩ.le
  have hkey : 0 < u ^ 2 + u * v + v ^ 2 - Ω := by nlinarith
  have := cubic_sub Ω E u v
  nlinarith

/-- For `Ω ≤ 0` the cubic is strictly increasing on all of `ℝ`. -/
lemma cubic_mono_all {Ω : ℝ} (hΩ : Ω ≤ 0) (E u v : ℝ)
    (huv : u < v) : cubic Ω E u < cubic Ω E v := by
  have hkey : 0 < u ^ 2 + u * v + v ^ 2 - Ω := by
    nlinarith [sq_nonneg (u + v), mul_pos (sub_pos.mpr huv) (sub_pos.mpr huv)]
  have := cubic_sub Ω E u v
  nlinarith

/-- The stability test `3x^2 - Ω > 0` holds exactly outside `[-bcrit, bcrit]`. -/
lemma stable_iff_outside {Ω : ℝ} (hΩ : 0 < Ω) (y : ℝ) :
    0 < 3 * y ^ 2 - Ω ↔ (y < -(bcrit Ω) ∨ bcrit Ω < y) := by
  have hb0 := bcrit_pos hΩ
  have hb2 := bcrit_sq hΩ.le
  constructor
  · intro h
    have hy2 : bcrit Ω ^ 2 < y ^ 2 := by nlinarith
    rcases le_or_lt 0 y with h0 | h0
    · right; nlinarith
    · left; nlinarith
  · rintro (h | h) <;> nlinarith

/-- Intermediate-value step: a sign change of the cubic locates a root. -/
lemma cubic_root_between (Ω E lo hi : ℝ) (hle : lo ≤ hi)
    (hlo : cubic Ω E lo < 0) (hhi : 0 < cubic Ω E hi) :
    ∃ r, r ∈ Set.Ioo lo hi ∧ cubic Ω E r = 0 := by
  have hc : ContinuousOn (cubic Ω E) (Set.Icc lo hi) :=
    (cubic_continuous Ω E).continuousOn
  have h0 : (0 : ℝ) ∈ Set.Ioo (cubic Ω E lo) (cubic Ω E hi) := ⟨hlo, hhi⟩
  obtain ⟨r, hr, hr0⟩ := intermediate_value_Ioo hle hc h0
  exact ⟨r, hr, hr0⟩

/-- The cubic is positive at `c` whenever `c ≥ |Ω| + |E| + 1`. -/
lemma cubic_pos_big (Ω E c : ℝ) (h2 : |Ω| + |E| + 1 ≤ c) : 0 < cubic Ω E c := by
  have ha : 0 ≤ |Ω| := abs_nonneg Ω
  have he : 0 ≤ |E| := abs_nonneg E
  have h1 : 1 ≤ c := by linarith
  have hc0 : 0 < c := by linarith
  have hΩc : Ω * c ≤ |Ω| * c := mul_le_mul_of_nonneg_right (le_abs_self Ω) hc0.le
  have hcc : c * (|Ω| + |E| + 1) ≤ c * c := mul_le_mul_of_nonneg_left h2 hc0.le
  have hc3 : c * c ≤ c * c * c := by nlinarith
  have hE : E ≤ |E| := le_abs_self E
  have hEc : |E| ≤ |E| * c := by nlinarith
  show 0 < c ^ 3 - Ω * c - E
  nlinarith

/-- The cubic is negative at `-c` whenever `c ≥ |Ω| + |E| + 1`. -/
lemma cubic_neg_big (Ω E c : ℝ) (h2 : |Ω| + |E| + 1 ≤ c) : cubic Ω E (-c) < 0 := by
  have ha : 0 ≤ |Ω| := abs_nonneg Ω
  have he : 0 ≤ |E| := abs_nonneg E
  have h1 : 1 ≤ c := by linarith
  have hc0 : 0 < c := by linarith
  have hΩc : Ω * c ≤ |Ω| * c := mul_le_mul_of_nonneg_right (le_abs_self Ω) hc0.le
  have hcc : c * (|Ω| + |E| + 1) ≤ c * c := mul_le_mul_of_nonneg_left h2 hc0.le
  have hc3 : c * c ≤ c * c * c := by nlinarith
  have hE : -E ≤ |E| := by rw [← abs_neg]; exact le_abs_self (-E)
  have hEc : |E| ≤ |E| * c := by nlinarith
  show (-c) ^ 3 - Ω * (-c) - E < 0
  nlinarith

lemma bcrit_le_big {Ω : ℝ} (hΩ : 0 < Ω) (E : ℝ) : bcrit Ω ≤ |Ω| + |E| + 1 := by
  have hb2 := bcrit_sq hΩ.le
  have hb0 := (bcrit_pos hΩ).le
  have ha : Ω ≤ |Ω| := le_abs_self Ω
  have he : 0 ≤ |E| := abs_nonneg E
  rcases le_or_lt (bcrit Ω) 1 with h | h
  · linarith [abs_nonneg Ω]
  · nlinarith

/-- Value of the cubic at the positive critical point: `-E_crit - E`. -/
lemma cubic_at_bcrit {Ω : ℝ} (hΩ : 0 < Ω) (E : ℝ) :
    cubic Ω E (bcrit Ω) = -(Ecrit Ω) - E := by
  have hb2 := bcrit_sq hΩ.le
  rw [Ecrit_eq hΩ]
  unfold cubic
  linear_combination (3 * bcrit Ω) * hb2

/-- Value of the cubic at the negative critical point: `E_crit - E`. -/
lemma cubic_at_neg_bcrit {Ω : ℝ} (hΩ : 0 < Ω) (E : ℝ) :
    cubic Ω E (-(bcrit Ω)) = Ecrit Ω - E := by
  have hb2 := bcrit_sq hΩ.le
  rw [Ecrit_eq hΩ]
  unfold cubic
  linear_combination (-3 * bcrit Ω) * hb2

/-- Below the upper critical drive there is a stable root left of `-bcrit`,
and it is the only root there. -/
lemma lower_root {Ω : ℝ} (hΩ : 0 < Ω) (E : ℝ) (hE : E < Ecrit Ω) :
    ∃ r, r ∈ stableRootSet Ω E ∧ r < -(bcrit Ω) ∧
      -(|Ω| + |E| + 1) < r ∧
      ∀ y, cubic Ω E y = 0 → y < -(bcrit Ω) → y = r := by
  have hneg : cubic Ω E (-(|Ω| + |E| + 1)) < 0 := cubic_neg_big Ω E _ le_rfl
  have hpos : 0 < cubic Ω E (-(bcrit Ω)) := by
    rw [cubic_at_neg_bcrit hΩ]; linarith
  have hle : -(|Ω| + |E| + 1) ≤ -(bcrit Ω) := by
    have := bcrit_le_big hΩ E; linarith
  obtain ⟨r, ⟨hr1, hr2⟩, hr0⟩ := cubic_root_between Ω E _ _ hle hneg hpos
  have hstable : r ∈ stableRootSet Ω E :=
    ⟨hr0, (stable_iff_outside hΩ r).mpr (Or.inl hr2)⟩
  refine ⟨r, hstable, hr2, hr1, ?_⟩
  intro y hy hylt
  by_contra hne
  rcases lt_or_gt_of_ne hne with h | h
  · have := cubic_mono_lower hΩ E y r h hr2.le
    rw [hy, hr0] at this
    exact lt_irrefl 0 this
  · have := cubic_mono_lower hΩ E r y h hylt.le
    rw [hy, hr0] at this
    exact lt_irrefl 0 this

/-- Above the lower critical drive there is a stable root right of `bcrit`,
and it is the only root there. -/
lemma upper_root {Ω : ℝ} (hΩ : 0 < Ω) (E : ℝ) (hE : -(Ecrit Ω) < E) :
    ∃ r, r ∈ stableRootSet Ω E ∧ bcrit Ω < r ∧
      r < |Ω| + |E| + 1 ∧
      ∀ y, cubic Ω E y = 0 → bcrit Ω < y → y = r := by
  have hpos : 0 < cubic Ω E (|Ω| + |E| + 1) := cubic_pos_big Ω E _ le_rfl
  have hneg : cubic Ω E (bcrit Ω) < 0 := by
    rw [cubic_at_bcrit hΩ]; linarith
  have hle : bcrit Ω ≤ |Ω| + |E| + 1 := bcrit_le_big hΩ E
  obtain ⟨r, ⟨hr1, hr2⟩, hr0⟩ := cubic_root_between Ω E _ _ hle hneg hpos
  have hstable : r ∈ stableRootSet Ω E :=
    ⟨hr0, (stable_iff_outside hΩ r).mpr (Or.inr hr1)⟩
  refine ⟨r, hstable, hr1, hr2, ?_⟩
  intro y hy hylt
  by_contra hne
  rcases lt_or_gt_of_ne hne with h | h
  · have := cubic_mono_upper hΩ E y r hylt.le h
    rw [hy, hr0] at this
    exact lt_irrefl 0 this
  · have := cubic_mono_upper hΩ E r y hr1.le h
    rw [hy, hr0] at this
    exact lt_irrefl 0 this

/-- At or above the critical drive there is no stable root left of the well:
the whole branch `x < -bcrit` has negative cubic values. -/
lemma no_lower_root {Ω : ℝ} (hΩ : 0 < Ω) (E : ℝ) (hE : Ecrit Ω ≤ E) :
    ∀ y ∈ stableRootSet Ω E, ¬ y < -(bcrit Ω) := by
  rintro y ⟨hy0, -⟩ hlt
  have h1 : cubic Ω E y < cubic Ω E (-(bcrit Ω)) :=
    cubic_mono_lower hΩ E y _ hlt le_rfl
  rw [hy0, cubic_at_neg_bcrit hΩ] at h1
  linarith

/-- At or below the negative critical drive there is no stable root right of
the well. -/
lemma no_upper_root {Ω : ℝ} (hΩ : 0 < Ω) (E : ℝ) (hE : E ≤ -(Ecrit Ω)) :
    ∀ y ∈ stableRootSet Ω E, ¬ bcrit Ω < y := by
  rintro y ⟨hy0, -⟩ hlt
  have h1 : cubic Ω E (bcrit Ω) < cubic Ω E y :=
    cubic_mono_upper hΩ E _ y le_rfl hlt
  rw [hy0, cubic_at_bcrit hΩ] at h1
  linarith

/-- In the bistable band `|E| < E_crit` the stable-root set is an explicit
pair. -/
lemma stableRootSet_pair {Ω : ℝ} (hΩ : 0 < Ω) (E : ℝ) (hE : |E| < Ecrit Ω) :
    ∃ rlo rhi, rlo < -(bcrit Ω) ∧ bcrit Ω < rhi ∧
      stableRootSet Ω E = {rlo, rhi} := by
  obtain ⟨hE1, hE2⟩ := abs_lt.mp hE
  obtain ⟨rlo, hlo_mem, hlo_lt, -, hlo_uniq⟩ := lower_root hΩ E hE2
  obtain ⟨rhi, hhi_mem, hhi_gt, -, hhi_uniq⟩ := upper_root hΩ E hE1
  refine ⟨rlo, rhi, hlo_lt, hhi_gt, ?_⟩
  ext y
  constructor
  · rintro ⟨hy0, hy1⟩
    rcases (stable_iff_outside hΩ y).mp hy1 with h | h
    · exact Or.inl (hlo_uniq y hy0 h)
    · exact Or.inr (hhi_uniq y hy0 h)
  · rintro (rfl | rfl)
    · exact hlo_mem
    · exact hhi_mem

/-- At or beyond the critical drive (upper side) the stable-root set is an
explicit singleton on the upper branch. -/
lemma stableRootSet_single_upper {Ω : ℝ} (hΩ : 0 < Ω) (E : ℝ)
    (hE : Ecrit Ω ≤ E) :
    ∃ r, bcrit Ω < r ∧ stableRootSet Ω E = {r} := by
  have hE1 : -(Ecrit Ω) < E := by have := Ecrit_pos hΩ; linarith
  obtain ⟨r, hmem, hgt, -, huniq⟩ := upper_root hΩ E hE1
  refine ⟨r, hgt, ?_⟩
  ext y
  constructor
  · rintro ⟨hy0, hy1⟩
    rcases (stable_iff_outside hΩ y).mp hy1 with h | h
    · exact absurd h (no_lower_root hΩ E hE y ⟨hy0, hy1⟩)
    · exact huniq y hy0 h
  · rintro rfl
    exact hmem

/-- At or beyond the critical drive (lower side) the stable-root set is an
explicit singleton on the lower branch. -/
lemma stableRootSet_single_lower {Ω : ℝ} (hΩ : 0 < Ω) (E : ℝ)
    (hE : E ≤ -(Ecrit Ω)) :
    ∃ r, r < -(bcrit Ω) ∧ stableRootSet Ω E = {r} := by
  have hE2 : E < Ecrit Ω := by have := Ecrit_pos hΩ; linarith
  obtain ⟨r, hmem, hlt, -, huniq⟩ := lower_root hΩ E hE2
  refine ⟨r, hlt, ?_⟩
  ext y
  constructor
  · rintro ⟨hy0, hy1⟩
    rcases (stable_iff_outside hΩ y).mp hy1 with h | h
    · exact huniq y hy0 h
    · exact absurd h (no_upper_root hΩ E hE y ⟨hy0, hy1⟩)
  · rintro rfl
    exact hmem

/-- For `Ω < 0` the stable-root set is a singleton at every drive. -/
lemma stableRootSet_single_neg {Ω : ℝ} (hΩ : Ω < 0) (E : ℝ) :
    ∃ r, stableRootSet Ω E = {r} := by
  have hneg : cubic Ω E (-(|Ω| + |E| + 1)) < 0 := cubic_neg_big Ω E _ le_rfl
  have hpos : 0 < cubic Ω E (|Ω| + |E| + 1) := cubic_pos_big Ω E _ le_rfl
  have hle : -(|Ω| + |E| + 1) ≤ (|Ω| + |E| + 1) := by
    have := abs_nonneg Ω; have := abs_nonneg E; linarith
  obtain ⟨r, -, hr0⟩ := cubic_root_between Ω E _ _ hle hneg hpos
  refine ⟨r, ?_⟩
  ext y
  constructor
  · rintro ⟨hy0, -⟩
    by_contra hne
    rcases lt_or_gt_of_ne (by simpa using hne) with h | h
    · have := cubic_mono_all hΩ.le E y r h
      rw [hy0, hr0] at this
      exact lt_irrefl 0 this
    · have := cubic_mono_all hΩ.le E r y h
      rw [hy0, hr0] at this
      exact lt_irrefl 0 this
  · intro hy
    rw [Set.mem_singleton_iff.mp hy]
    exact ⟨hr0, by nlinarith [sq_nonneg r]⟩

lemma stableRootSet_zero_zero : stableRootSet (0 : ℝ) 0 = ∅ := by
  rw [Set.eq_empty_iff_forall_not_mem]
  rintro y ⟨h1, h2⟩
  have hy : y = 0 := by
    have h1' : y ^ 3 = 0 := by
      have : y ^ 3 - 0 * y - 0 = 0 := h1
      linarith
    exact pow_eq_zero_iff (by norm_num) |>.mp h1'
  rw [hy] at h2
  norm_num at h2

/-! ### Claims C2 and C5 -/

/-- Claim C2: for `Ω > 0`, `_get_stable_roots(E)` finds exactly two stable
roots when `|E| < E_crit = sqrt(4Ω³/27)` and exactly one when `|E| > E_crit`. -/
theorem C2_stable_root_count (Ω E : ℝ) (hΩ : 0 < Ω) :
    (|E| < Ecrit Ω → (stableRootSet Ω E).encard = 2) ∧
    (Ecrit Ω < |E| → (stableRootSet Ω E).encard = 1) := by
  constructor
  · intro hE
    obtain ⟨rlo, rhi, h1, h2, hset⟩ := stableRootSet_pair hΩ E hE
    rw [hset]
    refine Set.encard_pair ?_
    have hb := bcrit_pos hΩ
    intro h
    rw [h] at h1
    linarith
  · intro hE
    rcases lt_abs.mp hE with h | h
    · obtain ⟨r, -, hset⟩ := stableRootSet_single_upper hΩ E h.le
      rw [hset, Set.encard_singleton]
    · obtain ⟨r, -, hset⟩ := stableRootSet_single_lower hΩ E (by linarith)
      rw [hset, Set.encard_singleton]

/-- Witness for C2 at `Ω = 3`, `E = 0` (bistable) and the monostable branch
condition stated for the same drive. -/
theorem C2_stable_root_count_witness :
    (|(0 : ℝ)| < Ecrit 3 → (stableRootSet 3 (0 : ℝ)).encard = 2) ∧
    (Ecrit 3 < |(0 : ℝ)| → (stableRootSet 3 (0 : ℝ)).encard = 1) :=
  C2_stable_root_count 3 0 (by norm_num)

/-- Counterexample to C5 as stated: at `Ω = 0 ≤ 0` and `E = 0` the code's
root filter rejects the triple root `x = 0` (its second-derivative test
`3x² - Ω > 0` fails), so `_get_stable_roots` returns no root at all rather
than exactly one. -/
theorem C5_counterexample :
    (0 : ℝ) ≤ 0 ∧ (stableRootSet (0 : ℝ) 0).encard ≠ 1 := by
  refine ⟨le_rfl, ?_⟩
  rw [stableRootSet_zero_zero, Set.encard_empty]
  norm_num

/-- Claim C5 as amended: for every `Ω < 0` (strictly), `_get_stable_roots`
returns exactly one stable root at every drive, and the update rule is
history-independent — the recorded gain depends only on the current drive,
so a symmetric up-then-down ramp traces identical ascending and descending
gain trajectories. -/
theorem C5_amended_monostable (Ω : ℝ) (hΩ : Ω < 0) :
    (∀ E : ℝ, (stableRootSet Ω E).encard = 1) ∧
    ∀ L : ℝ → List ℝ, StableEnum Ω L →
      ∃ φ : ℝ → ℝ, ∀ (x : ℝ) (Es : List ℝ),
        betaList L x Es = Es.map φ ∧
        betaList L x (Es ++ Es.reverse) = Es.map φ ++ (Es.map φ).reverse := by
  constructor
  · intro E
    obtain ⟨r, hset⟩ := stableRootSet_single_neg hΩ E
    rw [hset, Set.encard_singleton]
  · intro L hL
    have hstep : ∀ (E x : ℝ), stepX L x E = stepX L 0 E := by
      intro E x
      obtain ⟨r, hset⟩ := stableRootSet_single_neg hΩ E
      obtain ⟨-, hiff⟩ := hL E
      have hall : ∀ y ∈ L E, y = r := by
        intro y hy
        have := (hiff y).mp hy
        rw [hset] at this
        exact this
      have hrL : r ∈ L E := (hiff r).mpr (by rw [hset]; rfl)
      have hne : L E ≠ [] := List.ne_nil_of_mem hrL
      have h1 : argminAbs x (L E) = r :=
        argminAbs_eq_of_unique x r (L E) hrL fun y hy => Or.inl (hall y hy)
      have h2 : argminAbs 0 (L E) = r :=
        argminAbs_eq_of_unique 0 r (L E) hrL fun y hy => Or.inl (hall y hy)
      rw [stepX, if_neg hne, stepX, if_neg hne, h1, h2]
    refine ⟨fun E => Real.exp (stepX L 0 E), ?_⟩
    have hmap : ∀ (Es : List ℝ) (x : ℝ),
        betaList L x Es = Es.map fun E => Real.exp (stepX L 0 E) := by
      intro Es
      induction Es with
      | nil => intro x; rfl
      | cons E Es ih =>
        intro x
        show Real.exp (stepX L x E) :: betaList L (stepX L x E) Es = _
        rw [List.map_cons, hstep E x, ih]
    intro x Es
    refine ⟨hmap Es x, ?_⟩
    have hsplit : betaList L x (Es ++ Es.reverse) =
        betaList L x Es ++ betaList L (xAfter L x Es) Es.reverse := by
      rw [betaList, xList_append, List.map_append]
      rfl
    rw [hsplit, hmap Es x, hmap Es.reverse (xAfter L x Es), List.map_reverse]

/-- Witness for C5's amended claim at `Ω = -1`. -/
theorem C5_amended_monostable_witness :
    (∀ E : ℝ, (stableRootSet (-1 : ℝ) E).encard = 1) ∧
    ∀ L : ℝ → List ℝ, StableEnum (-1 : ℝ) L →
      ∃ φ : ℝ → ℝ, ∀ (x : ℝ) (Es : List ℝ),
        betaList L x Es = Es.map φ ∧
        betaList L x (Es ++ Es.reverse) = Es.map φ ++ (Es.map φ).reverse :=
  C5_amended_monostable (-1) (by norm_num)

/-! ### The catastrophe-forcing protocol at `Ω = 3/2`

`run_catastrophe_forcing_protocol` ramps the drive from `-4` to `4` over
200 `np.linspace` points and back.  For the neurotypical agent `Ω = 1.5`
both `bcrit` and `Ecrit` equal `sqrt(1/2)`. -/

/-- The ascending half of the stress ramp, `np.linspace(-4.0, 4.0, 200)`. -/
noncomputable def E_ascending : List ℝ :=
  (List.range 200).map (fun k : ℕ => -4 + 8 * (k : ℝ) / 199)

/-- The descending half of the stress ramp, `np.linspace(4.0, -4.0, 200)`. -/
noncomputable def E_descending : List ℝ :=
  (List.range 200).map (fun k : ℕ => 4 - 8 * (k : ℝ) / 199)

/-- The full stress ramp `np.concatenate([E_ascending, E_descending])`. -/
noncomputable def E_sequence : List ℝ := E_ascending ++ E_descending

lemma bcrit_th_sq : bcrit (3 / 2 : ℝ) ^ 2 = 1 / 2 := by
  have h := bcrit_sq (Ω := (3 / 2 : ℝ)) (by norm_num)
  rw [h]; norm_num

lemma bcrit_th_pos : 0 < bcrit (3 / 2 : ℝ) := bcrit_pos (by norm_num)

lemma Ecrit_th : Ecrit (3 / 2 : ℝ) = bcrit (3 / 2 : ℝ) := by
  rw [Ecrit_eq (by norm_num)]
  linear_combination 2 * bcrit (3 / 2 : ℝ) * bcrit_th_sq

lemma bcrit_th_lt_four : bcrit (3 / 2 : ℝ) < 4 := by
  nlinarith [bcrit_th_sq, bcrit_th_pos]

lemma four_lt_nine_bcrit : 4 < 9 * bcrit (3 / 2 : ℝ) := by
  nlinarith [bcrit_th_sq, bcrit_th_pos]

lemma four_div_199_lt_bcrit : (4 : ℝ) / 199 < bcrit (3 / 2 : ℝ) := by
  nlinarith [bcrit_th_sq, bcrit_th_pos]

/-- For drives in `[-4, E_crit)` there is a stable root in the lower well
`(-3b, -b)`, and every other stable root lies beyond `b`. -/
lemma asc_zone_root (E : ℝ) (hE1 : -4 ≤ E) (hE2 : E < bcrit (3 / 2 : ℝ)) :
    ∃ r, r ∈ stableRootSet (3 / 2 : ℝ) E ∧
      -(3 * bcrit (3 / 2 : ℝ)) < r ∧ r < -(bcrit (3 / 2 : ℝ)) ∧
      ∀ y ∈ stableRootSet (3 / 2 : ℝ) E, y = r ∨ bcrit (3 / 2 : ℝ) < y := by
  have hs2 := bcrit_th_sq
  have hs0 := bcrit_th_pos
  have hb3 : bcrit (3 / 2 : ℝ) ^ 3 = bcrit (3 / 2 : ℝ) / 2 := by
    linear_combination bcrit (3 / 2 : ℝ) * hs2
  have hneg : cubic (3 / 2) E (-(3 * bcrit (3 / 2 : ℝ))) < 0 := by
    show (-(3 * bcrit (3 / 2 : ℝ))) ^ 3 - 3 / 2 * (-(3 * bcrit (3 / 2 : ℝ))) - E < 0
    nlinarith [four_lt_nine_bcrit]
  have hpos : 0 < cubic (3 / 2) E (-(bcrit (3 / 2 : ℝ))) := by
    rw [cubic_at_neg_bcrit (by norm_num), Ecrit_th]
    linarith
  have hle : -(3 * bcrit (3 / 2 : ℝ)) ≤ -(bcrit (3 / 2 : ℝ)) := by linarith
  obtain ⟨r, ⟨hr1, hr2⟩, hr0⟩ := cubic_root_between _ E _ _ hle hneg hpos
  have hrS : r ∈ stableRootSet (3 / 2 : ℝ) E :=
    ⟨hr0, (stable_iff_outside (by norm_num) r).mpr (Or.inl hr2)⟩
  refine ⟨r, hrS, hr1, hr2, ?_⟩
  rintro y ⟨hy0, hy1⟩
  rcases (stable_iff_outside (by norm_num) y).mp hy1 with h | h
  · left
    by_contra hne
    rcases lt_or_gt_of_ne hne with hlt | hlt
    · have := cubic_mono_lower (Ω := (3 / 2 : ℝ)) (by norm_num) E y r hlt hr2.le
      rw [hy0, hr0] at this
      exact lt_irrefl 0 this
    · have := cubic_mono_lower (Ω := (3 / 2 : ℝ)) (by norm_num) E r y hlt h.le
      rw [hy0, hr0] at this
      exact lt_irrefl 0 this
  · exact Or.inr h

/-- For drives in `(-E_crit, 4]` there is a stable root in the upper well
`(b, 3b)`, and every other stable root lies below `-b`. -/
lemma desc_zone_root (E : ℝ) (hE1 : -(bcrit (3 / 2 : ℝ)) < E) (hE2 : E ≤ 4) :
    ∃ r, r ∈ stableRootSet (3 / 2 : ℝ) E ∧
      bcrit (3 / 2 : ℝ) < r ∧ r < 3 * bcrit (3 / 2 : ℝ) ∧
      ∀ y ∈ stableRootSet (3 / 2 : ℝ) E, y = r ∨ y < -(bcrit (3 / 2 : ℝ)) := by
  have hs2 := bcrit_th_sq
  have hs0 := bcrit_th_pos
  have hb3 : bcrit (3 / 2 : ℝ) ^ 3 = bcrit (3 / 2 : ℝ) / 2 := by
    linear_combination bcrit (3 / 2 : ℝ) * hs2
  have hneg : cubic (3 / 2) E (bcrit (3 / 2 : ℝ)) < 0 := by
    rw [cubic_at_bcrit (by norm_num), Ecrit_th]
    linarith
  have hpos : 0 < cubic (3 / 2) E (3 * bcrit (3 / 2 : ℝ)) := by
    show 0 < (3 * bcrit (3 / 2 : ℝ)) ^ 3 - 3 / 2 * (3 * bcrit (3 / 2 : ℝ)) - E
    nlinarith [four_lt_nine_bcrit]
  have hle : bcrit (3 / 2 : ℝ) ≤ 3 * bcrit (3 / 2 : ℝ) := by linarith
  obtain ⟨r, ⟨hr1, hr2⟩, hr0⟩ := cubic_root_between _ E _ _ hle hneg hpos
  have hrS : r ∈ stableRootSet (3 / 2 : ℝ) E :=
    ⟨hr0, (stable_iff_outside (by norm_num) r).mpr (Or.inr hr1)⟩
  refine ⟨r, hrS, hr1, hr2, ?_⟩
  rintro y ⟨hy0, hy1⟩
  rcases (stable_iff_outside (by norm_num) y).mp hy1 with h | h
  · exact Or.inr h
  · left
    by_contra hne
    rcases lt_or_gt_of_ne hne with hlt | hlt
    · have := cubic_mono_upper (Ω := (3 / 2 : ℝ)) (by norm_num) E y r h.le hlt
      rw [hy0, hr0] at this
      exact lt_irrefl 0 this
    · have := cubic_mono_upper (Ω := (3 / 2 : ℝ)) (by norm_num) E r y hr1.le hlt
      rw [hy0, hr0] at this
      exact lt_irrefl 0 this

/-- Below `-E_crit` the selection lands in the lower well from any previous
state: the enumeration is a singleton there. -/
lemma step_into_low (L : ℝ → List ℝ) (hL : StableEnum (3 / 2 : ℝ) L) (E x : ℝ)
    (hE1 : -4 ≤ E) (hE2 : E < -(bcrit (3 / 2 : ℝ))) :
    stepX L x E ∈ Set.Ioo (-(3 * bcrit (3 / 2 : ℝ))) (-(bcrit (3 / 2 : ℝ))) := by
  have hs0 := bcrit_th_pos
  obtain ⟨r, hrS, hr1, hr2, hother⟩ := asc_zone_root E hE1 (by linarith)
  obtain ⟨-, hiff⟩ := hL E
  have hrL : r ∈ L E := (hiff r).mpr hrS
  have hall : ∀ y ∈ L E, y = r := by
    intro y hy
    have hyS := (hiff y).mp hy
    rcases hother y hyS with h | h
    · exact h
    · exact absurd h
        (no_upper_root (by norm_num) E (by rw [Ecrit_th]; linarith) y hyS)
  have harg : argminAbs x (L E) = r :=
    argminAbs_eq_of_unique x r (L E) hrL (fun y hy => Or.inl (hall y hy))
  rw [stepX, if_neg (List.ne_nil_of_mem hrL), harg]
  exact ⟨hr1, hr2⟩

/-- Within `[-4, 0)` the selection keeps to the lower well when the previous
state is there: the lower root is strictly closer than any upper root. -/
lemma step_keep_low (L : ℝ → List ℝ) (hL : StableEnum (3 / 2 : ℝ) L) (E x : ℝ)
    (hE1 : -4 ≤ E) (hE2 : E < 0)
    (hx : x ∈ Set.Ioo (-(3 * bcrit (3 / 2 : ℝ))) (-(bcrit (3 / 2 : ℝ)))) :
    stepX L x E ∈ Set.Ioo (-(3 * bcrit (3 / 2 : ℝ))) (-(bcrit (3 / 2 : ℝ))) := by
  have hs0 := bcrit_th_pos
  obtain ⟨hx1, hx2⟩ := hx
  obtain ⟨r, hrS, hr1, hr2, hother⟩ := asc_zone_root E hE1 (by linarith)
  obtain ⟨-, hiff⟩ := hL E
  have hrL : r ∈ L E := (hiff r).mpr hrS
  have hkey : ∀ y ∈ L E, y = r ∨ |r - x| < |y - x| := by
    intro y hy
    rcases hother y ((hiff y).mp hy) with h | h
    · exact Or.inl h
    · right
      have h1 : |r - x| < 2 * bcrit (3 / 2 : ℝ) := by
        rw [abs_lt]
        constructor <;> linarith
      have h2 : 2 * bcrit (3 / 2 : ℝ) < |y - x| :=
        lt_of_lt_of_le (by linarith) (le_abs_self (y - x))
      exact lt_trans h1 h2
  rw [stepX, if_neg (List.ne_nil_of_mem hrL), argminAbs_eq_of_unique x r (L E) hrL hkey]
  exact ⟨hr1, hr2⟩

/-- Above `E_crit` the selection lands in the upper well from any previous
state. -/
lemma step_into_high (L : ℝ → List ℝ) (hL : StableEnum (3 / 2 : ℝ) L) (E x : ℝ)
    (hE1 : bcrit (3 / 2 : ℝ) < E) (hE2 : E ≤ 4) :
    stepX L x E ∈ Set.Ioo (bcrit (3 / 2 : ℝ)) (3 * bcrit (3 / 2 : ℝ)) := by
  have hs0 := bcrit_th_pos
  obtain ⟨r, hrS, hr1, hr2, hother⟩ := desc_zone_root E (by linarith) hE2
  obtain ⟨-, hiff⟩ := hL E
  have hrL : r ∈ L E := (hiff r).mpr hrS
  have hall : ∀ y ∈ L E, y = r := by
    intro y hy
    have hyS := (hiff y).mp hy
    rcases hother y hyS with h | h
    · exact h
    · exact absurd h
        (fun h' => no_lower_root (by norm_num) E (by rw [Ecrit_th]; linarith) y hyS h')
  have harg : argminAbs x (L E) = r :=
    argminAbs_eq_of_unique x r (L E) hrL (fun y hy => Or.inl (hall y hy))
  rw [stepX, if_neg (List.ne_nil_of_mem hrL), harg]
  exact ⟨hr1, hr2⟩

/-- Within `(-E_crit, 4]` the selection keeps to the upper well when the
previous state is there. -/
lemma step_keep_high (L : ℝ → List ℝ) (hL : StableEnum (3 / 2 : ℝ) L) (E x : ℝ)
    (hE1 : -(bcrit (3 / 2 : ℝ)) < E) (hE2 : E ≤ 4)
    (hx : x ∈ Set.Ioo (bcrit (3 / 2 : ℝ)) (3 * bcrit (3 / 2 : ℝ))) :
    stepX L x E ∈ Set.Ioo (bcrit (3 / 2 : ℝ)) (3 * bcrit (3 / 2 : ℝ)) := by
  have hs0 := bcrit_th_pos
  obtain ⟨hx1, hx2⟩ := hx
  obtain ⟨r, hrS, hr1, hr2, hother⟩ := desc_zone_root E hE1 hE2
  obtain ⟨-, hiff⟩ := hL E
  have hrL : r ∈ L E := (hiff r).mpr hrS
  have hkey : ∀ y ∈ L E, y = r ∨ |r - x| < |y - x| := by
    intro y hy
    rcases hother y ((hiff y).mp hy) with h | h
    · exact Or.inl h
    · right
      have h1 : |r - x| < 2 * bcrit (3 / 2 : ℝ) := by
        rw [abs_lt]
        constructor <;> linarith
      have h2 : 2 * bcrit (3 / 2 : ℝ) < |y - x| := by
        have hyx : y - x < -(2 * bcrit (3 / 2 : ℝ)) := by linarith
        calc 2 * bcrit (3 / 2 : ℝ) < -(y - x) := by linarith
        _ ≤ |y - x| := neg_le_abs (y - x)
      exact lt_trans h1 h2
  rw [stepX, if_neg (List.ne_nil_of_mem hrL), argminAbs_eq_of_unique x r (L E) hrL hkey]
  exact ⟨hr1, hr2⟩

lemma fold_keep_low (L : ℝ → List ℝ) (hL : StableEnum (3 / 2 : ℝ) L) :
    ∀ (Es : List ℝ), (∀ E ∈ Es, -4 ≤ E ∧ E < 0) →
      ∀ x ∈ Set.Ioo (-(3 * bcrit (3 / 2 : ℝ))) (-(bcrit (3 / 2 : ℝ))),
        xAfter L x Es ∈ Set.Ioo (-(3 * bcrit (3 / 2 : ℝ))) (-(bcrit (3 / 2 : ℝ))) := by
  intro Es
  induction Es with
  | nil => intro _ x hx; exact hx
  | cons E Es ih =>
    intro hall x hx
    rw [xAfter_cons]
    have hE := hall E (List.mem_cons_self E Es)
    exact ih (fun F hF => hall F (List.mem_cons_of_mem E hF)) _
      (step_keep_low L hL E x hE.1 hE.2 hx)

lemma fold_keep_high (L : ℝ → List ℝ) (hL : StableEnum (3 / 2 : ℝ) L) :
    ∀ (Es : List ℝ), (∀ E ∈ Es, -(bcrit (3 / 2 : ℝ)) < E ∧ E ≤ 4) →
      ∀ x ∈ Set.Ioo (bcrit (3 / 2 : ℝ)) (3 * bcrit (3 / 2 : ℝ)),
        xAfter L x Es ∈ Set.Ioo (bcrit (3 / 2 : ℝ)) (3 * bcrit (3 / 2 : ℝ)) := by
  intro Es
  induction Es with
  | nil => intro _ x hx; exact hx
  | cons E Es ih =>
    intro hall x hx
    rw [xAfter_cons]
    have hE := hall E (List.mem_cons_self E Es)
    exact ih (fun F hF => hall F (List.mem_cons_of_mem E hF)) _
      (step_keep_high L hL E x hE.1 hE.2 hx)

lemma asc_take_100 :
    E_ascending.take 100 =
      (-4 : ℝ) :: (List.range 99).map (fun k : ℕ => -4 + 8 * ((k : ℝ) + 1) / 199) := by
  have h1 : E_ascending.take 100 =
      (List.range 100).map (fun k : ℕ => -4 + 8 * (k : ℝ) / 199) := by
    rw [E_ascending, ← List.map_take]
    congr 1
  rw [h1, show (100 : ℕ) = 99 + 1 from rfl, List.range_succ_eq_map,
    List.map_cons, List.map_map]
  congr 1
  · norm_num
  · congr 1
    funext k
    simp only [Function.comp_apply, Nat.succ_eq_add_one]
    push_cast
    ring

lemma desc_take_101 :
    E_descending.take 101 =
      (4 : ℝ) :: (List.range 100).map (fun k : ℕ => 4 - 8 * ((k : ℝ) + 1) / 199) := by
  have h1 : E_descending.take 101 =
      (List.range 101).map (fun k : ℕ => 4 - 8 * (k : ℝ) / 199) := by
    rw [E_descending, ← List.map_take]
    congr 1
  rw [h1, show (101 : ℕ) = 100 + 1 from rfl, List.range_succ_eq_map,
    List.map_cons, List.map_map]
  congr 1
  · norm_num
  · congr 1
    funext k
    simp only [Function.comp_apply, Nat.succ_eq_add_one]
    push_cast
    ring

lemma asc_tail_bounds :
    ∀ E ∈ (List.range 99).map (fun k : ℕ => -4 + 8 * ((k : ℝ) + 1) / 199),
      -4 ≤ E ∧ E < 0 := by
  intro E hE
  obtain ⟨k, hk, rfl⟩ := List.mem_map.mp hE
  have hk99 : (k : ℝ) ≤ 98 := by
    have := List.mem_range.mp hk
    exact_mod_cast Nat.le_of_lt_succ this
  have hk0 : (0 : ℝ) ≤ (k : ℝ) := Nat.cast_nonneg k
  constructor <;> [linarith; linarith]

lemma desc_tail_bounds :
    ∀ E ∈ (List.range 100).map (fun k : ℕ => 4 - 8 * ((k : ℝ) + 1) / 199),
      -(bcrit (3 / 2 : ℝ)) < E ∧ E ≤ 4 := by
  intro E hE
  obtain ⟨k, hk, rfl⟩ := List.mem_map.mp hE
  have hk99 : (k : ℝ) ≤ 99 := by
    have := List.mem_range.mp hk
    exact_mod_cast Nat.le_of_lt_succ this
  have hk0 : (0 : ℝ) ≤ (k : ℝ) := Nat.cast_nonneg k
  have hs : 4 / 199 < bcrit (3 / 2 : ℝ) := by
    nlinarith [bcrit_th_sq, bcrit_th_pos]
  constructor
  · have : (-4 : ℝ) / 199 ≤ 4 - 8 * ((k : ℝ) + 1) / 199 := by linarith
    linarith
  · linarith

/-- State after the first 100 ascending steps: deep in the lower well. -/
lemma x_after_asc_100 (L : ℝ → List ℝ) (hL : StableEnum (3 / 2 : ℝ) L) (x0 : ℝ) :
    xAfter L x0 (E_ascending.take 100) ∈
      Set.Ioo (-(3 * bcrit (3 / 2 : ℝ))) (-(bcrit (3 / 2 : ℝ))) := by
  rw [asc_take_100, xAfter_cons]
  refine fold_keep_low L hL _ asc_tail_bounds _ ?_
  exact step_into_low L hL (-4) x0 le_rfl (by nlinarith [bcrit_th_sq, bcrit_th_pos])

/-- State after the first 101 descending steps: deep in the upper well. -/
lemma x_after_desc_101 (L : ℝ → List ℝ) (hL : StableEnum (3 / 2 : ℝ) L) (x1 : ℝ) :
    xAfter L x1 (E_descending.take 101) ∈
      Set.Ioo (bcrit (3 / 2 : ℝ)) (3 * bcrit (3 / 2 : ℝ)) := by
  rw [desc_take_101, xAfter_cons]
  refine fold_keep_high L hL _ desc_tail_bounds _ ?_
  exact step_into_high L hL 4 x1 bcrit_th_lt_four le_rfl

lemma betaList_getElem? (L : ℝ → List ℝ) (x : ℝ) (Es : List ℝ) (k : ℕ)
    (hk : k < Es.length) :
    (betaList L x Es)[k]? = some (Real.exp (xAfter L x (Es.take (k + 1)))) := by
  rw [betaList, List.getElem?_map, xList_getElem? L Es x k hk]
  rfl

lemma get_eq_of_getElem? (l : List ℝ) (k : ℕ) (h : k < l.length) (v : ℝ)
    (hv : l[k]? = some v) : l.get ⟨k, h⟩ = v := by
  rw [List.get_eq_getElem]
  have h2 := List.getElem?_eq_getElem h
  rw [h2] at hv
  exact Option.some.inj hv

lemma E_ascending_length : E_ascending.length = 200 := by
  simp [E_ascending]

lemma E_descending_length : E_descending.length = 200 := by
  simp [E_descending]

lemma E_ascending_get_99 (h : 99 < E_ascending.length) :
    E_ascending.get ⟨99, h⟩ = -4 / 199 := by
  rw [List.get_eq_getElem]
  simp only [E_ascending, List.getElem_map, List.getElem_range]
  norm_num

lemma E_descending_get_100 (h : 100 < E_descending.length) :
    E_descending.get ⟨100, h⟩ = -4 / 199 := by
  rw [List.get_eq_getElem]
  simp only [E_descending, List.getElem_map, List.getElem_range]
  norm_num

/-- Claim C4: for `Ω = 1.5`, running `update_state` along the protocol's ramp
from `-4` to `4` and back yields a drive value `E` with `|E| < E_crit` whose
recorded gain on the descending pass differs strictly from the gain recorded
at the same `E` on the ascending pass (hysteresis). -/
theorem C4_hysteresis_loop (L : ℝ → List ℝ) (hL : StableEnum (3 / 2 : ℝ) L) :
    ∃ (E : ℝ) (k j : ℕ) (hk : k < E_ascending.length) (hj : j < E_descending.length)
      (hk2 : k < (runAgent L (mkAgent (3 / 2) L) E_sequence).beta_history.length)
      (hj2 : E_ascending.length + j <
        (runAgent L (mkAgent (3 / 2) L) E_sequence).beta_history.length),
      E_ascending.get ⟨k, hk⟩ = E ∧ E_descending.get ⟨j, hj⟩ = E ∧
      |E| < Ecrit (3 / 2 : ℝ) ∧
      (runAgent L (mkAgent (3 / 2) L) E_sequence).beta_history.get ⟨k, hk2⟩ ≠
        (runAgent L (mkAgent (3 / 2) L) E_sequence).beta_history.get
          ⟨E_ascending.length + j, hj2⟩ := by
  have hs0 := bcrit_th_pos
  have hlba : (betaList L (mkAgent (3 / 2) L).x E_ascending).length = 200 := by
    rw [betaList, List.length_map, xList_length, E_ascending_length]
  have hbh : (runAgent L (mkAgent (3 / 2) L) E_sequence).beta_history =
      betaList L (mkAgent (3 / 2) L).x E_ascending ++
        betaList L (xAfter L (mkAgent (3 / 2) L).x E_ascending) E_descending := by
    rw [runAgent_beta_history]
    show ([] : List ℝ) ++ betaList L (mkAgent (3 / 2) L).x E_sequence = _
    rw [List.nil_append, E_sequence, betaList, xList_append, List.map_append]
    rfl
  have hlen : (runAgent L (mkAgent (3 / 2) L) E_sequence).beta_history.length = 400 := by
    rw [hbh, List.length_append, hlba, betaList, List.length_map, xList_length,
      E_descending_length]
  have hk : (99 : ℕ) < E_ascending.length := by rw [E_ascending_length]; norm_num
  have hj : (100 : ℕ) < E_descending.length := by rw [E_descending_length]; norm_num
  have hk2 : (99 : ℕ) < (runAgent L (mkAgent (3 / 2) L) E_sequence).beta_history.length := by
    rw [hlen]; norm_num
  have hj2 : E_ascending.length + 100 <
      (runAgent L (mkAgent (3 / 2) L) E_sequence).beta_history.length := by
    rw [hlen, E_ascending_length]; norm_num
  have hgasc : (runAgent L (mkAgent (3 / 2) L) E_sequence).beta_history.get ⟨99, hk2⟩ =
      Real.exp (xAfter L (mkAgent (3 / 2) L).x (E_ascending.take 100)) := by
    refine get_eq_of_getElem? _ 99 hk2 _ ?_
    rw [hbh, List.getElem?_append_left (by rw [hlba]; norm_num)]
    exact betaList_getElem? L _ E_ascending 99 (by rw [E_ascending_length]; norm_num)
  have hgdesc : (runAgent L (mkAgent (3 / 2) L) E_sequence).beta_history.get
        ⟨E_ascending.length + 100, hj2⟩ =
      Real.exp (xAfter L (xAfter L (mkAgent (3 / 2) L).x E_ascending)
        (E_descending.take 101)) := by
    refine get_eq_of_getElem? _ _ hj2 _ ?_
    rw [hbh, List.getElem?_append_right (by rw [hlba, E_ascending_length]; norm_num)]
    have hidx : E_ascending.length + 100 -
        (betaList L (mkAgent (3 / 2) L).x E_ascending).length = 100 := by
      rw [hlba, E_ascending_length]
    rw [hidx]
    exact betaList_getElem? L _ E_descending 100 (by rw [E_descending_length]; norm_num)
  have hxa := x_after_asc_100 L hL (mkAgent (3 / 2) L).x
  have hxd := x_after_desc_101 L hL (xAfter L (mkAgent (3 / 2) L).x E_ascending)
  refine ⟨-4 / 199, 99, 100, hk, hj, hk2, hj2,
    E_ascending_get_99 hk, E_descending_get_100 hj, ?_, ?_⟩
  · rw [Ecrit_th]
    have habs : |(-4 / 199 : ℝ)| = 4 / 199 := by
      rw [abs_of_neg (by norm_num)]; norm_num
    rw [habs]
    exact four_div_199_lt_bcrit
  · rw [hgasc, hgdesc]
    intro hcontra
    have heq := Real.exp_injective hcontra
    obtain ⟨ha1, ha2⟩ := hxa
    obtain ⟨hd1, hd2⟩ := hxd
    rw [heq] at ha2
    linarith

/-- The stable-root set of `Ω = 3/2` admits an enumeration at every drive
(two roots inside the critical band, one outside), so a function `L`
satisfying `StableEnum` exists. -/
lemma exists_stable_enum_three_halves : ∃ L : ℝ → List ℝ, StableEnum (3 / 2 : ℝ) L := by
  have hall : ∀ E : ℝ, ∃ l : List ℝ,
      l.Nodup ∧ ∀ y : ℝ, y ∈ l ↔ y ∈ stableRootSet (3 / 2 : ℝ) E := by
    intro E
    rcases lt_or_le (|E|) (Ecrit (3 / 2 : ℝ)) with hE | hE
    · obtain ⟨rlo, rhi, h1, h2, hset⟩ := stableRootSet_pair (by norm_num) E hE
      have hne : rlo ≠ rhi := by
        have := bcrit_th_pos
        intro h
        rw [h] at h1
        linarith
      refine ⟨[rlo, rhi], by simp [hne], ?_⟩
      intro y
      rw [hset]
      constructor
      · intro hy
        rcases by simpa using hy with rfl | rfl
        · exact Or.inl rfl
        · exact Or.inr rfl
      · intro hy
        rcases hy with rfl | hy
        · simp
        · rw [Set.mem_singleton_iff.mp hy]
          simp
    · rcases le_abs.mp hE with h | h
      · obtain ⟨r, -, hset⟩ := stableRootSet_single_upper (by norm_num) E h
        refine ⟨[r], by simp, ?_⟩
        intro y
        rw [hset]
        simp
      · obtain ⟨r, -, hset⟩ := stableRootSet_single_lower (Ω := (3 / 2 : ℝ)) (by norm_num) E (by linarith)
        refine ⟨[r], by simp, ?_⟩
        intro y
        rw [hset]
        simp
  choose L hnodup hiff using hall
  exact ⟨L, fun E => ⟨hnodup E, hiff E⟩⟩

/-- Witness for C4 over an explicit enumeration of the stable roots. -/
theorem C4_hysteresis_loop_witness :
    ∃ L : ℝ → List ℝ, StableEnum (3 / 2 : ℝ) L ∧
      ∃ (E : ℝ) (k j : ℕ) (hk : k < E_ascending.length) (hj : j < E_descending.length)
        (hk2 : k < (runAgent L (mkAgent (3 / 2) L) E_sequence).beta_history.length)
        (hj2 : E_ascending.length + j <
          (runAgent L (mkAgent (3 / 2) L) E_sequence).beta_history.length),
        E_ascending.get ⟨k, hk⟩ = E ∧ E_descending.get ⟨j, hj⟩ = E ∧
        |E| < Ecrit (3 / 2 : ℝ) ∧
        (runAgent L (mkAgent (3 / 2) L) E_sequence).beta_history.get ⟨k, hk2⟩ ≠
          (runAgent L (mkAgent (3 / 2) L) E_sequence).beta_history.get
            ⟨E_ascending.length + j, hj2⟩ := by
  obtain ⟨L, hL⟩ := exists_stable_enum_three_halves
  exact ⟨L, hL, C4_hysteresis_loop L hL⟩

/-! ### Concrete inputs used in witnesses and counterexamples -/

/-- At `Ω = 1`, `E = 0` the stable roots are `-1` and `1` (the root `0` fails
the stability test); `wL` is one admissible enumeration. -/
def wL : ℝ → List ℝ := fun _ => [-1, 1]

/-- A concrete agent with `omega = 1` and current state `0`. -/
def wAgent : TGCAgentV5 := ⟨1, 0, [], []⟩

/-- A concrete agent with `omega = 0` and current state `1`. -/
def wAgentZero : TGCAgentV5 := ⟨0, 1, [], []⟩

/-- The empty enumeration, admissible wherever no stable root exists. -/
def cL : ℝ → List ℝ := fun _ => []

lemma wL_enum : ∀ y : ℝ, y ∈ wL 0 ↔ y ∈ stableRootSet 1 0 := by
  intro y
  constructor
  · intro hy
    have hy' : y = -1 ∨ y = 1 := by simpa [wL] using hy
    rcases hy' with rfl | rfl
    · refine ⟨by norm_num [cubic], by norm_num⟩
    · refine ⟨by norm_num [cubic], by norm_num⟩
  · rintro ⟨h1, h2⟩
    have hfac : y * (y - 1) * (y + 1) = 0 := by
      have h1' : y ^ 3 - 1 * y - 0 = 0 := h1
      linear_combination h1'
    rcases mul_eq_zero.mp hfac with h3 | h3
    · rcases mul_eq_zero.mp h3 with h4 | h4
      · exfalso; rw [h4] at h2; norm_num at h2
      · have : y = 1 := by linarith
        simp [wL, this]
    · have : y = -1 := by linarith
      simp [wL, this]

lemma cL_enum_zero : ∀ y : ℝ, y ∈ cL 0 ↔ y ∈ stableRootSet (0 : ℝ) 0 := by
  intro y
  simp [cL, stableRootSet_zero_zero]

/-! ### Claims C1, C6, C7, C8, C9, C10 -/

/-- Claim C1: on a call `update_state(E)` with a non-empty set of stable roots
at drive `E`, the new state is the stable root minimising `|root - state|`
over the previous state, ties broken in favour of the first-encountered root
in the returned order, and this selected root is stored as the new state. -/
theorem C1_minimum_distance_selection (L : ℝ → List ℝ) (a : TGCAgentV5) (E : ℝ)
    (hmem : ∀ y : ℝ, y ∈ L E ↔ y ∈ stableRootSet a.omega E)
    (hne : (stableRootSet a.omega E).Nonempty) :
    ∃ (k : ℕ) (hk : k < (L E).length),
      (update_state L a E).1.x = (L E).get ⟨k, hk⟩ ∧
      (update_state L a E).1.x ∈ stableRootSet a.omega E ∧
      (∀ y ∈ L E, |(update_state L a E).1.x - a.x| ≤ |y - a.x|) ∧
      ∀ (j : ℕ) (hj : j < (L E).length), j < k →
        |(update_state L a E).1.x - a.x| < |(L E).get ⟨j, hj⟩ - a.x| := by
  obtain ⟨r, hr⟩ := hne
  have hrL : r ∈ L E := (hmem r).mpr hr
  have hLne : L E ≠ [] := List.ne_nil_of_mem hrL
  have hx : (update_state L a E).1.x = argminAbs a.x (L E) := by
    rw [update_state_fst_x, stepX, if_neg hLne]
  obtain ⟨k, hk, he, hall, hfirst⟩ := argminAbs_spec a.x (L E) hLne
  refine ⟨k, hk, by rw [hx, he], ?_, ?_, ?_⟩
  · rw [hx]
    exact (hmem _).mp (argminAbs_mem a.x (L E) hLne)
  · intro y hy
    rw [hx, he]
    exact hall y hy
  · intro j hj hjk
    rw [hx, he]
    exact hfirst j hj hjk

/-- Witness for C1 at `Ω = 1`, `E = 0`, previous state `0`: the enumeration
`[-1, 1]` has two roots tied at distance `1`, and the first is selected. -/
theorem C1_minimum_distance_selection_witness :
    ∃ (k : ℕ) (hk : k < (wL 0).length),
      (update_state wL wAgent 0).1.x = (wL 0).get ⟨k, hk⟩ ∧
      (update_state wL wAgent 0).1.x ∈ stableRootSet wAgent.omega 0 ∧
      (∀ y ∈ wL 0, |(update_state wL wAgent 0).1.x - wAgent.x| ≤ |y - wAgent.x|) ∧
      ∀ (j : ℕ) (hj : j < (wL 0).length), j < k →
        |(update_state wL wAgent 0).1.x - wAgent.x| < |(wL 0).get ⟨j, hj⟩ - wAgent.x| :=
  C1_minimum_distance_selection wL wAgent 0 wL_enum
    ⟨1, by constructor <;> norm_num [cubic, wAgent]⟩

/-- Claim C6: after every `update_state(E)` call the state field is a stable
root of `x^3 - Ω*x - E` at the drive just applied, or is unchanged when no
stable root exists there. -/
theorem C6_state_is_stable_root (L : ℝ → List ℝ) (a : TGCAgentV5) (E : ℝ)
    (hmem : ∀ y : ℝ, y ∈ L E ↔ y ∈ stableRootSet a.omega E) :
    (update_state L a E).1.x ∈ stableRootSet a.omega E ∨
    (stableRootSet a.omega E = ∅ ∧ (update_state L a E).1.x = a.x) := by
  by_cases hLE : L E = []
  · right
    constructor
    · rw [Set.eq_empty_iff_forall_not_mem]
      intro y hy
      have : y ∈ L E := (hmem y).mpr hy
      rw [hLE] at this
      simp at this
    · rw [update_state_fst_x, stepX, if_pos hLE]
  · left
    rw [update_state_fst_x, stepX, if_neg hLE]
    exact (hmem _).mp (argminAbs_mem a.x (L E) hLE)

/-- Witness for C6 at `Ω = 1`, `E = 0`. -/
theorem C6_state_is_stable_root_witness :
    (update_state wL wAgent 0).1.x ∈ stableRootSet wAgent.omega 0 ∨
    (stableRootSet wAgent.omega 0 = ∅ ∧ (update_state wL wAgent 0).1.x = wAgent.x) :=
  C6_state_is_stable_root wL wAgent 0 wL_enum

/-- Claim C7: at a drive with no stable root, `update_state` leaves the state
field unchanged and returns normally (the gain of the retained state); the
condition never propagates as a failure. -/
theorem C7_fallback_retains_state (L : ℝ → List ℝ) (a : TGCAgentV5) (E : ℝ)
    (hmem : ∀ y : ℝ, y ∈ L E ↔ y ∈ stableRootSet a.omega E)
    (hempty : stableRootSet a.omega E = ∅) :
    (update_state L a E).1.x = a.x ∧ (update_state L a E).2 = Real.exp a.x := by
  have hLE : L E = [] := by
    rw [List.eq_nil_iff_forall_not_mem]
    intro y hy
    have : y ∈ stableRootSet a.omega E := (hmem y).mp hy
    rw [hempty] at this
    exact this
  constructor
  · rw [update_state_fst_x, stepX, if_pos hLE]
  · rw [update_state_snd, stepX, if_pos hLE]

/-- Witness for C7 at `Ω = 0`, `E = 0`, where the stable-root set is empty. -/
theorem C7_fallback_retains_state_witness :
    (update_state cL wAgentZero 0).1.x = wAgentZero.x ∧
    (update_state cL wAgentZero 0).2 = Real.exp wAgentZero.x :=
  C7_fallback_retains_state cL wAgentZero 0 cL_enum_zero stableRootSet_zero_zero

/-- Counterexample to C8 as stated: at `Ω = 0`, `E = 0` the fallback is taken
(the stable-root set is empty and the state field is retained), yet the
histories are mutated — `x_history` grows by one entry, so the observable
state is not exactly as before the call. -/
theorem C8_counterexample :
    stableRootSet (0 : ℝ) 0 = ∅ ∧
    (update_state cL wAgentZero 0).1.x = wAgentZero.x ∧
    (update_state cL wAgentZero 0).1.x_history ≠ wAgentZero.x_history := by
  refine ⟨stableRootSet_zero_zero, ?_, ?_⟩
  · rw [update_state_fst_x, stepX]
    simp [cL]
  · intro h
    have : ([] : List ℝ) ++ [stepX cL (1 : ℝ) 0] = ([] : List ℝ) := h
    simp at this

/-- Claim C8 as amended: every `update_state` call fully commits one and the
same mutation shape — it sets the state field (retaining the previous value
exactly when the root list is empty) and appends exactly one entry to each
history; under the fallback the state field itself is unmutated, but both
histories still gain their one entry. -/
theorem C8_amended_full_commit (L : ℝ → List ℝ) (a : TGCAgentV5) (E : ℝ) :
    (L E = [] → (update_state L a E).1.x = a.x) ∧
    (update_state L a E).1.x_history = a.x_history ++ [(update_state L a E).1.x] ∧
    (update_state L a E).1.beta_history =
      a.beta_history ++ [Real.exp ((update_state L a E).1.x)] ∧
    (update_state L a E).1.omega = a.omega := by
  refine ⟨?_, rfl, rfl, rfl⟩
  intro h
  rw [update_state_fst_x, stepX, if_pos h]

/-- Claim C9: at construction the state is the largest stable root at drive
`0`, or `0.0` when no stable root exists there (and construction succeeds). -/
theorem C9_initialization (Ω : ℝ) (L : ℝ → List ℝ)
    (hmem : ∀ y : ℝ, y ∈ L 0 ↔ y ∈ stableRootSet Ω 0) :
    ((stableRootSet Ω 0).Nonempty →
      (mkAgent Ω L).x ∈ stableRootSet Ω 0 ∧
        ∀ y ∈ stableRootSet Ω 0, y ≤ (mkAgent Ω L).x) ∧
    (stableRootSet Ω 0 = ∅ → (mkAgent Ω L).x = 0) := by
  by_cases hL0 : L 0 = []
  · constructor
    · rintro ⟨r, hr⟩
      have : r ∈ L 0 := (hmem r).mpr hr
      rw [hL0] at this
      simp at this
    · intro _
      show (if L 0 = [] then (0 : ℝ) else maxList (L 0)) = 0
      rw [if_pos hL0]
  · have hx : (mkAgent Ω L).x = maxList (L 0) := by
      show (if L 0 = [] then (0 : ℝ) else maxList (L 0)) = maxList (L 0)
      rw [if_neg hL0]
    obtain ⟨hmax_mem, hmax_ub⟩ := maxList_spec (L 0) hL0
    constructor
    · intro _
      refine ⟨by rw [hx]; exact (hmem _).mp hmax_mem, ?_⟩
      intro y hy
      rw [hx]
      exact hmax_ub y ((hmem y).mpr hy)
    · intro hempty
      obtain ⟨r, hr⟩ := List.exists_mem_of_ne_nil _ hL0
      have : r ∈ stableRootSet Ω 0 := (hmem r).mp hr
      rw [hempty] at this
      exact absurd this (Set.not_mem_empty r)

/-- Witness for C9 at `Ω = 1`: the largest stable root at zero drive is `1`. -/
theorem C9_initialization_witness :
    ((stableRootSet (1 : ℝ) 0).Nonempty →
      (mkAgent 1 wL).x ∈ stableRootSet (1 : ℝ) 0 ∧
        ∀ y ∈ stableRootSet (1 : ℝ) 0, y ≤ (mkAgent 1 wL).x) ∧
    (stableRootSet (1 : ℝ) 0 = ∅ → (mkAgent 1 wL).x = 0) :=
  C9_initialization 1 wL wL_enum

/-- Claim C10: after any sequence of `update_state` calls from construction,
the two histories have one entry per call, every gain entry is `exp` of the
state entry at the same index, and each further call returns exactly the gain
value it appends. -/
theorem C10_history_bookkeeping (L : ℝ → List ℝ) (Ω : ℝ) (Es : List ℝ) :
    (runAgent L (mkAgent Ω L) Es).x_history.length = Es.length ∧
    (runAgent L (mkAgent Ω L) Es).beta_history =
      (runAgent L (mkAgent Ω L) Es).x_history.map Real.exp ∧
    ∀ E : ℝ,
      (update_state L (runAgent L (mkAgent Ω L) Es) E).1.beta_history =
        (runAgent L (mkAgent Ω L) Es).beta_history ++
          [(update_state L (runAgent L (mkAgent Ω L) Es) E).2] ∧
      (update_state L (runAgent L (mkAgent Ω L) Es) E).2 =
        Real.exp ((update_state L (runAgent L (mkAgent Ω L) Es) E).1.x) := by
  refine ⟨?_, ?_, ?_⟩
  · rw [runAgent_x_history]
    show (([] : List ℝ) ++ xList L (mkAgent Ω L).x Es).length = Es.length
    simp [xList_length]
  · rw [runAgent_x_history, runAgent_beta_history]
    show ([] : List ℝ) ++ betaList L (mkAgent Ω L).x Es =
      (([] : List ℝ) ++ xList L (mkAgent Ω L).x Es).map Real.exp
    simp [betaList]
  · intro E
    exact ⟨rfl, rfl⟩

/-! ### Thermostatic learning agent

The thermostatic agent's implementation is not among the repository's source
files (only the catastrophe agent is); the definitions below are modelled
from the specification's sections 3 and 4.2. -/

/-- Modelled from the spec: the thermostatic learning agent's fixed
configuration (learning rate, cooling rate, reheat threshold and amount,
error-decay rate, static flag) and mutable state (the two action values,
the temperature, the leaky error integrator, the entropy history).  The
implementation of this agent is missing from the repository's sources. -/
structure ThermostaticAgent where
  learningRate : ℝ
  temperature : ℝ
  coolingRate : ℝ
  reheatThreshold : ℝ
  reheatAmount : ℝ
  errorDecay : ℝ
  isStatic : Bool
  q0 : ℝ
  q1 : ℝ
  cumulativeError : ℝ
  entropyHistory : List ℝ

/-- The fixed temperature floor named by the spec. -/
noncomputable def tempFloor : ℝ := 0.01

/-- Modelled from the spec: `update(action, reward)` — delta-rule value
update; then, unless the agent is the static variant, multiplicative cooling
clamped at the floor on positive reward, and the leaky integrator of negative
prediction-error magnitudes with additive reheating and a hard reset when it
crosses the threshold. -/
noncomputable def ThermostaticAgent.update (a : ThermostaticAgent)
    (action : Bool) (reward : ℝ) : ThermostaticAgent :=
  let q := if action then a.q1 else a.q0
  let pe := reward - q
  let a1 := if action then { a with q1 := a.q1 + a.learningRate * pe }
            else { a with q0 := a.q0 + a.learningRate * pe }
  if a.isStatic then a1
  else
    let a2 := if 0 < reward then
        { a1 with temperature := max tempFloor (a1.temperature * a1.coolingRate) }
      else a1
    let ce := if pe < 0 then a1.errorDecay * a1.cumulativeError + |pe|
              else a1.errorDecay * a1.cumulativeError
    if a2.reheatThreshold < ce then
      { a2 with temperature := a2.temperature + a2.reheatAmount, cumulativeError := 0 }
    else
      { a2 with cumulativeError := ce }

/-- Modelled from the spec: softmax probability of action `1` at the current
temperature, max-shifted for numerical stability. -/
noncomputable def ThermostaticAgent.actionProb1 (a : ThermostaticAgent) : ℝ :=
  let m := max a.q0 a.q1
  let e0 := Real.exp ((a.q0 - m) / a.temperature)
  let e1 := Real.exp ((a.q1 - m) / a.temperature)
  e1 / (e0 + e1)

/-- Modelled from the spec: `selectAction()` — compute the softmax entropy
(with a small additive floor inside the log; the spec fixes no value, `1e-10`
here), append it to the history, and sample the action by comparing an
externally supplied uniform draw `u` with the probability of action `1`.
Temperature, action values and the error integrator are untouched. -/
noncomputable def ThermostaticAgent.selectAction (a : ThermostaticAgent) (u : ℝ) :
    ThermostaticAgent × Bool :=
  let p1 := a.actionProb1
  let p0 := 1 - p1
  let ent := -(p0 * Real.log (p0 + 1e-10) + p1 * Real.log (p1 + 1e-10))
  ({ a with entropyHistory := a.entropyHistory ++ [ent] }, decide (u < p1))

/-- One interaction event of the thermostatic agent's trial loop. -/
inductive ThermoEvent where
  | selectAct (u : ℝ)
  | applyUpdate (action : Bool) (reward : ℝ)

/-- Apply one event to the agent. -/
noncomputable def thermoStep (a : ThermostaticAgent) : ThermoEvent → ThermostaticAgent
  | ThermoEvent.selectAct u => (a.selectAction u).1
  | ThermoEvent.applyUpdate act r => a.update act r

/-- Run a whole interaction sequence. -/
noncomputable def runThermo (a : ThermostaticAgent) (evs : List ThermoEvent) :
    ThermostaticAgent :=
  evs.foldl thermoStep a

/-- A configuration with a negative reheat amount — admissible for the spec's
data model, which constrains `reheatAmount` only to be real — starting at
temperature `1`. -/
noncomputable def badThermo : ThermostaticAgent :=
  { learningRate := 0.1, temperature := 1, coolingRate := 0.9,
    reheatThreshold := 0.5, reheatAmount := -1, errorDecay := 0.5,
    isStatic := false, q0 := 0, q1 := 0, cumulativeError := 0,
    entropyHistory := [] }

/-- A well-behaved configuration used as a witness input. -/
noncomputable def goodThermo : ThermostaticAgent :=
  { learningRate := 0.1, temperature := 1, coolingRate := 0.9,
    reheatThreshold := 0.5, reheatAmount := 0.5, errorDecay := 0.5,
    isStatic := false, q0 := 0, q1 := 0, cumulativeError := 0,
    entropyHistory := [] }

/-- Counterexample to C3 as stated: with a negative `reheatAmount` (a
configuration the spec's data model admits — it requires only a real value),
one triggering `update` call drops the temperature from `1` to `0`, strictly
below the floor `0.01`: the floor is not invariant for *every* configuration. -/
theorem C3_counterexample :
    tempFloor ≤ badThermo.temperature ∧
    (badThermo.update false (-1)).temperature < tempFloor := by
  constructor
  · show (0.01 : ℝ) ≤ 1
    norm_num
  · rw [ThermostaticAgent.update]
    norm_num [badThermo, tempFloor]

/-- One `update` step preserves the floor when the reheat amount is
non-negative, and never alters the `reheatAmount` configuration field. -/
lemma update_temperature_floor (a : ThermostaticAgent) (action : Bool) (reward : ℝ)
    (h1 : tempFloor ≤ a.temperature) (h2 : 0 ≤ a.reheatAmount) :
    tempFloor ≤ (a.update action reward).temperature ∧
    (a.update action reward).reheatAmount = a.reheatAmount := by
  rw [ThermostaticAgent.update]
  by_cases haction : action <;> by_cases hstatic : a.isStatic <;>
    simp only [haction, hstatic, if_true, if_false, Bool.false_eq_true,
      ite_true, ite_false] <;>
    constructor <;>
    first
      | trivial
      | exact h1
      | rfl
      | ((repeat' split) <;> dsimp only <;>
          first
            | trivial
            | rfl
            | linarith [le_max_left tempFloor (a.temperature * a.coolingRate)])

/-- Claim C3 as amended: for every configuration whose initial temperature is
at least the floor `0.01` and whose `reheatAmount` is non-negative, the
temperature stays at or above `0.01` after any sequence of `selectAction` and
`update` calls with any rewards.  (As stated — over *every* configuration —
the claim fails; see the counterexample with a negative reheat amount.) -/
theorem C3_amended_temperature_floor (a : ThermostaticAgent) (evs : List ThermoEvent)
    (h1 : tempFloor ≤ a.temperature) (h2 : 0 ≤ a.reheatAmount) :
    tempFloor ≤ (runThermo a evs).temperature := by
  induction evs generalizing a with
  | nil => exact h1
  | cons e evs ih =>
    have hstep : runThermo a (e :: evs) = runThermo (thermoStep a e) evs := rfl
    rw [hstep]
    cases e with
    | selectAct u => exact ih _ h1 h2
    | applyUpdate act r =>
      obtain ⟨hf, hra⟩ := update_temperature_floor a act r h1 h2
      exact ih _ hf (le_of_le_of_eq h2 hra.symm)

/-- Witness for C3's amended claim: a concrete adaptive configuration run
through an update (with negative reward, triggering a reheat) and an action
selection. -/
theorem C3_amended_temperature_floor_witness :
    tempFloor ≤ (runThermo goodThermo
      [ThermoEvent.applyUpdate false (-1), ThermoEvent.selectAct (1 / 2)]).temperature :=
  C3_amended_temperature_floor goodThermo
    [ThermoEvent.applyUpdate false (-1), ThermoEvent.selectAct (1 / 2)]
    (by show (0.01 : ℝ) ≤ 1; norm_num)
    (by show (0 : ℝ) ≤ 0.5; norm_num)

end TGC
